import Mathlib

/-!
Shallow embedding of the resource-value normalization and tabular
aggregation core of `src/dashboard.py` (k3s-lab dashboard).

Modelling conventions:
* Python floats are modelled as exact rationals (`ℚ`).  Every numeric value
  at issue in the specification (halves, powers of 1024 and 1000) is exactly
  representable in IEEE double precision, and multiplication by the unit
  table's constants and division of integers by 1000 are exact on those
  values, so the rational model agrees with Python's float semantics on all
  claims considered here.
* A raised Python exception is modelled as `Except.error` carrying the
  exception kind; a normal return is `Except.ok`.
* Strings are modelled over their character lists; Python's `str.isdigit`
  and `float()` are modelled on ASCII contents (the payloads at issue are
  ASCII `kubectl` output).  `float()`'s special forms `inf`/`nan` and
  underscore separators are outside the model.
-/

deriving instance DecidableEq for Except

namespace Dashboard

/-- ASCII whitespace accepted (and stripped) by Python `float()` around a
numeric literal. -/
def pyWhitespace (c : Char) : Bool :=
  c = ' ' || c = '\t' || c = '\n' || c = '\r'

/-- Strip leading and trailing whitespace from a character list, as Python
`float()` does to its argument. -/
def pyStrip (l : List Char) : List Char :=
  ((l.dropWhile pyWhitespace).reverse.dropWhile pyWhitespace).reverse

/-- Numeric value of a list of decimal digit characters. -/
def digitsToNat (l : List Char) : Nat :=
  l.foldl (fun n c => 10 * n + (c.toNat - 48)) 0

/-- Exponent part of a Python float literal (after the `e`/`E`): optional
sign followed by at least one digit. -/
def pyExp (l : List Char) : Option Int :=
  if l.headD ' ' = '+' then
    if l.tail.isEmpty || !l.tail.all Char.isDigit then none
    else some (digitsToNat l.tail)
  else if l.headD ' ' = '-' then
    if l.tail.isEmpty || !l.tail.all Char.isDigit then none
    else some (-(digitsToNat l.tail : Int))
  else if l.isEmpty || !l.all Char.isDigit then none
  else some (digitsToNat l)

/-- Syntactic decomposition of a Python float literal: sign, integer-part
digits, fraction-part digits, exponent. -/
structure FloatParts where
  neg : Bool
  ip : List Char
  fp : List Char
  exp : Int
deriving DecidableEq, Repr

/-- Parse the unsigned tail of a Python float literal (digits with an
optional single decimal point, at least one digit overall, optional
exponent) into its parts. -/
def pyMagParts (neg : Bool) (l : List Char) : Option FloatParts :=
  let ip := l.takeWhile Char.isDigit
  let rest := l.dropWhile Char.isDigit
  let hasDot := rest.head? = some '.'
  let fp := if hasDot then rest.tail.takeWhile Char.isDigit else []
  let rest2 := if hasDot then rest.tail.dropWhile Char.isDigit else rest
  if ip.isEmpty && fp.isEmpty then none
  else if rest2.isEmpty then some ⟨neg, ip, fp, 0⟩
  else if rest2.headD ' ' = 'e' || rest2.headD ' ' = 'E' then
    (pyExp rest2.tail).map (fun e => ⟨neg, ip, fp, e⟩)
  else none

/-- Parse a whole (already stripped) Python float literal into its parts:
an optional sign followed by the unsigned tail. -/
def pyFloatParts (l : List Char) : Option FloatParts :=
  if l.headD ' ' = '+' then pyMagParts false l.tail
  else if l.headD ' ' = '-' then pyMagParts true l.tail
  else pyMagParts false l

/-- Numeric (exact-rational) value of the parts of a float literal. -/
def ratOfParts (p : FloatParts) : ℚ :=
  (if p.neg then -1 else 1) *
    ((digitsToNat p.ip : ℚ) + (digitsToNat p.fp : ℚ) / (10 : ℚ) ^ p.fp.length) *
    (10 : ℚ) ^ p.exp

/-- Python `float(s)` on a string, in the exact-rational model: strip
whitespace, optional sign, then an unsigned literal.  `none` models a
raised `ValueError`. -/
def pyFloat (s : String) : Option ℚ :=
  (pyFloatParts (pyStrip s.data)).map ratOfParts

/-- Python `s.endswith(suf)`. -/
def strEndswith (s suf : String) : Bool :=
  suf.data.isSuffixOf s.data

/-- Python `s[:-n]` for `n ≥ 1`: drop the last `n` characters (empty when
`n ≥ len(s)`). -/
def strDropRight (s : String) (n : Nat) : String :=
  ⟨s.data.take (s.data.length - n)⟩

/-- Python `s.replace(".", "", 1)`: remove the first `'.'`, if any. -/
def removeFirstDot : List Char → List Char
  | [] => []
  | c :: cs => if c = '.' then cs else c :: removeFirstDot cs

/-- Python `s.isdigit()` on ASCII contents: nonempty and all decimal
digits. -/
def pyIsdigit (l : List Char) : Bool :=
  !l.isEmpty && l.all Char.isDigit

/-- The `multipliers` dict of `parse_resource_value`, in insertion (and
hence iteration) order. -/
def multipliers : List (String × ℚ) :=
  [("Ki", 1024), ("Mi", 1024 ^ 2), ("Gi", 1024 ^ 3), ("Ti", 1024 ^ 4),
   ("K", 1000), ("M", 1000 ^ 2), ("G", 1000 ^ 3), ("T", 1000 ^ 4)]

/-- The `for suffix, mult in multipliers.items()` loop body of
`parse_resource_value`: first suffix that matches wins; its `float` call is
wrapped in `try/except ValueError` returning `0.0`; no match falls through
to `return 0.0`. -/
def suffixLoop (v : String) : List (String × ℚ) → Except String ℚ
  | [] => .ok 0
  | (suf, mult) :: rest =>
    if strEndswith v suf then
      match pyFloat (strDropRight v suf.length) with
      | some q => .ok (q * mult)
      | none => .ok 0
    else suffixLoop v rest

/-- `parse_resource_value` from `src/dashboard.py`.  The input is
`Option String` (`none` models Python `None`); the `float` calls in the
`"m"` branch and the plain-number branch are not guarded by any
`try/except`, so there a `ValueError` propagates (`Except.error`). -/
def parse_resource_value : Option String → Except String ℚ
  | none => .ok 0
  | some v =>
    if v = "" then .ok 0
    else if strEndswith v "m" then
      match pyFloat (strDropRight v 1) with
      | some q => .ok (q / 1000)
      | none => .error "ValueError"
    else if pyIsdigit (removeFirstDot v.data) then
      match pyFloat v with
      | some q => .ok q
      | none => .error "ValueError"
    else suffixLoop v multipliers

/-! ### Pod inventory (`get_pods`) -/

/-- One entry of the pod-listing payload's `items[]`, reduced to the fields
`get_pods` reads; a field is `none` when missing from the JSON (nested
containers defaulted with `.get(..., {})` collapse to missing leaves). -/
structure PodItem where
  app : Option String
  svcId : Option String
  name : Option String
  nodeName : Option String
  phase : Option String
deriving DecidableEq

/-- One row of the pod table (`rows.append({...})` in `get_pods`). -/
structure PodRecord where
  microservice : String
  svc_id : String
  pod : String
  node : String
  phase : String
deriving DecidableEq

/-- The row `get_pods` builds from one item: every missing field defaults
to the empty string via `.get(key, "")`. -/
def podRow (it : PodItem) : PodRecord :=
  ⟨it.app.getD "", it.svcId.getD "", it.name.getD "", it.nodeName.getD "",
   it.phase.getD ""⟩

/-- Sort key of `df.sort_values(["microservice", "pod"])`. -/
def podKey (r : PodRecord) : String × String :=
  (r.microservice, r.pod)

/-- The ascending lexicographic `(microservice, pod)` comparison used by
`sort_values(["microservice", "pod"])`; Python compares strings by code
point, as does Lean's `String` order. -/
def podLE (a b : PodRecord) : Bool :=
  decide (toLex (podKey a) ≤ toLex (podKey b))

/-- The decoding step of `get_pods` on an already-parsed payload: build one
row per item, then (unless empty) sort ascending by
`(microservice, pod)`.  pandas' multi-key `sort_values` is `np.lexsort`, a
stable sort; any stable sort by the same key computes the same list, so it
is modelled by `List.mergeSort`, which is stable. -/
def decodePods (items : List PodItem) : List PodRecord :=
  let rows := items.map podRow
  if rows.isEmpty then rows else rows.mergeSort podLE

/-- The value `run_cmd` returns: the `(stdout, stderr, returncode)`
tuple. -/
structure CmdResult where
  stdout : String
  stderr : String
  returncode : Int
deriving DecidableEq

/-- Python truthiness of the value `get_pods` receives from
`out = run_cmd(cmd)`: a tuple is truthy iff nonempty, and this is a
3-tuple, so it is truthy whatever its components. -/
def cmdResultTruthy (_ : CmdResult) : Bool := true

/-- A parsed pod-listing payload: `data.get("items", [])`. -/
structure PodListPayload where
  items : List PodItem
deriving DecidableEq

/-- `json.loads` applied to the tuple `run_cmd` returned: `json.loads`
accepts only `str`/`bytes`/`bytearray` and raises `TypeError` on a
tuple. -/
def json_loads_of_tuple (_ : CmdResult) : Except String PodListPayload :=
  .error "TypeError"

/-- `get_pods` from `src/dashboard.py`, as a function of the value the
executor call returned.  The source binds the whole tuple
(`out = run_cmd(cmd)`), tests the tuple's truthiness (`if not out`), and
passes the tuple itself to `json.loads(out)`. -/
def get_pods (out : CmdResult) : Except String (List PodRecord) :=
  if !cmdResultTruthy out then .ok []
  else do
    let data ← json_loads_of_tuple out
    .ok (decodePods data.items)

/-! ### Node inventory (`get_node_info`) -/

/-- One entry of the node-listing payload's `items[]`, reduced to the
fields `get_node_info` reads. -/
structure NodeItem where
  name : Option String
  capCpu : Option String
  capMemory : Option String
  allocCpu : Option String
  allocMemory : Option String
deriving DecidableEq

/-- One row of the node capacity frame (`base_df`). -/
structure NodeCapacity where
  node : String
  cpu_capacity_cores : ℚ
  mem_capacity_bytes : ℚ
  cpu_alloc_cores : ℚ
  mem_alloc_bytes : ℚ
deriving DecidableEq

/-- The row `get_node_info` builds from one node item; each of the four
`parse_resource_value` calls may raise, which propagates. -/
def nodeRow (it : NodeItem) : Except String NodeCapacity := do
  let c1 ← parse_resource_value it.capCpu
  let c2 ← parse_resource_value it.capMemory
  let c3 ← parse_resource_value it.allocCpu
  let c4 ← parse_resource_value it.allocMemory
  .ok ⟨it.name.getD "", c1, c2, c3, c4⟩

/-- The capacity-decoding loop of `get_node_info` over the payload's
items. -/
def decodeNodes (items : List NodeItem) : Except String (List NodeCapacity) :=
  items.mapM nodeRow

/-- One row of the metrics frame (`metric_rows`). -/
structure NodeUtilization where
  node : String
  cpu_used_cores_raw : String
  cpu_used_cores : ℚ
  cpu_used_pct : String
  mem_used_bytes_raw : String
  mem_used_bytes : ℚ
  mem_used_pct : String
deriving DecidableEq

/-- One step (processing one character, right to left) of Python
`line.split()`: whitespace closes the token under construction, any other
character extends it. -/
def pySplitStep (c : Char) (st : Option (List Char) × List (List Char)) :
    Option (List Char) × List (List Char) :=
  if pyWhitespace c then
    (none, match st.1 with
      | some t => t :: st.2
      | none => st.2)
  else (some (c :: st.1.getD []), st.2)

/-- Python `line.split()` on a character list: tokens separated by runs of
whitespace, with no empty tokens. -/
def pySplitChars (l : List Char) : List (List Char) :=
  match l.foldr pySplitStep (none, []) with
  | (some t, toks) => t :: toks
  | (none, toks) => toks

/-- Python `line.split()` on a string. -/
def pySplit (line : String) : List String :=
  (pySplitChars line.data).map (fun l => ⟨l⟩)

/-- The body of the `kubectl top nodes` loop for one line: a line
contributes a record only when it splits into at least 5 tokens; the two
numeric fields go through `parse_resource_value`, whose errors would
propagate. -/
def utilRow (parts : List String) : Except String (Option NodeUtilization) :=
  if parts.length ≥ 5 then do
    let c ← parse_resource_value (some (parts.getD 1 ""))
    let m ← parse_resource_value (some (parts.getD 3 ""))
    .ok (some ⟨parts.getD 0 "", parts.getD 1 "", c, parts.getD 2 "",
      parts.getD 3 "", m, parts.getD 4 ""⟩)
  else .ok none

/-- The metrics-decoding loop of `get_node_info` over the lines of
`kubectl top nodes --no-headers` output. -/
def decodeUtilizationLines (lines : List String) :
    Except String (List NodeUtilization) := do
  let rows ← lines.mapM (fun line => utilRow (pySplit line))
  .ok (rows.filterMap id)

/-- One row of the merged node view: the capacity columns plus the
utilization columns, the latter absent (pandas `NaN` / never joined) when
no utilization row matched. -/
structure NodeView where
  cap : NodeCapacity
  util : Option NodeUtilization
deriving DecidableEq

/-- `pd.merge(base_df, metrics_df, on="node", how="left")`: each capacity
row, in frame order, is paired with every utilization row whose `node`
matches (in utilization frame order); a row with no match keeps absent
utilization columns. -/
def leftMergeOnNode (base : List NodeCapacity) (metrics : List NodeUtilization) :
    List NodeView :=
  base.flatMap (fun c =>
    match metrics.filter (fun u => u.node == c.node) with
    | [] => [⟨c, none⟩]
    | ms => ms.map (fun u => ⟨c, some u⟩))

/-- The merge step of `get_node_info` (its last lines): join only when both
frames are nonempty; otherwise the result is the capacity frame, whose
rows carry no utilization columns. -/
def buildNodeView (base : List NodeCapacity) (metrics : List NodeUtilization) :
    List NodeView :=
  if !base.isEmpty && !metrics.isEmpty then leftMergeOnNode base metrics
  else base.map (fun c => ⟨c, none⟩)

/-! ### Pivot and per-node counts (`main`) -/

/-- `pods_df.groupby(["node", "microservice"]).size()`: one entry per
distinct observed (node, microservice) pair, carrying the number of rows
of that group. -/
def groupByNodeService (pods : List PodRecord) :
    List ((String × String) × Nat) :=
  ((pods.map (fun r => (r.node, r.microservice))).dedup).map
    (fun k => (k, (pods.filter (fun r => (r.node, r.microservice) == k)).length))

/-- Row labels of `pivot(index="node", ...)`: the distinct observed node
names. -/
def pivotRowLabels (pods : List PodRecord) : List String :=
  (pods.map (fun r => r.node)).dedup

/-- Column labels of `pivot(columns="microservice", ...)`: the distinct
observed microservice names. -/
def pivotColLabels (pods : List PodRecord) : List String :=
  (pods.map (fun r => r.microservice)).dedup

/-- A cell of `pivot(...).fillna(0)`: the grouped count where the
combination was observed, otherwise 0. -/
def pivotCell (pods : List PodRecord) (n m : String) : Nat :=
  ((groupByNodeService pods).lookup (n, m)).getD 0

/-- `pods_df.groupby("node").size()` at a node name: the number of pod rows
on that node. -/
def countPodsPerNode (pods : List PodRecord) (n : String) : Nat :=
  (pods.filter (fun r => r.node == n)).length

/-! ### Concrete fixtures used to instantiate the theorems -/

/-- A capacity row for node `n1`. -/
def capN1 : NodeCapacity := ⟨"n1", 4, 8, 4, 8⟩

/-- A utilization row for node `n1`. -/
def utilA : NodeUtilization := ⟨"n1", "1", 1, "5%", "2", 2, "10%"⟩

/-- A second, distinct utilization row for the same node `n1`. -/
def utilB : NodeUtilization := ⟨"n1", "2", 2, "9%", "3", 3, "11%"⟩

/-- Pods of the specification's end-to-end scenario: two `svcA` pods on
`n1`, one `svcB` pod on `n2`. -/
def demoPods : List PodRecord :=
  [⟨"svcA", "1", "pod-a1", "n1", "Running"⟩,
   ⟨"svcA", "1", "pod-a2", "n1", "Running"⟩,
   ⟨"svcB", "2", "pod-b1", "n2", "Running"⟩]

/-! ### Lemmas: characters, whitespace and `replace(".", "", 1)` -/

theorem not_ws_of_isDigit {c : Char} (h : c.isDigit = true) : pyWhitespace c = false := by
  by_contra hw
  rw [Bool.not_eq_false] at hw
  simp only [pyWhitespace, Bool.or_eq_true, decide_eq_true_eq] at hw
  rcases hw with ((rfl | rfl) | rfl) | rfl <;> exact absurd h (by decide)

theorem ne_dot_of_isDigit {c : Char} (h : c.isDigit = true) : c ≠ '.' := by
  rintro rfl; exact absurd h (by decide)

theorem ne_plus_of_isDigit {c : Char} (h : c.isDigit = true) : c ≠ '+' := by
  rintro rfl; exact absurd h (by decide)

theorem ne_minus_of_isDigit {c : Char} (h : c.isDigit = true) : c ≠ '-' := by
  rintro rfl; exact absurd h (by decide)

theorem dropWhile_eq_self_of_all {p : Char → Bool} {l : List Char}
    (h : ∀ c ∈ l, p c = false) : l.dropWhile p = l := by
  cases l with
  | nil => rfl
  | cons c cs => simp [List.dropWhile_cons, h c (by simp)]

/-- Stripping whitespace is the identity on whitespace-free lists. -/
theorem pyStrip_eq_self {l : List Char} (h : ∀ c ∈ l, pyWhitespace c = false) :
    pyStrip l = l := by
  unfold pyStrip
  rw [dropWhile_eq_self_of_all h,
    dropWhile_eq_self_of_all (fun c hc => h c (List.mem_reverse.mp hc)),
    List.reverse_reverse]

theorem mem_removeFirstDot {c : Char} (hc : c ≠ '.') :
    ∀ {l : List Char}, c ∈ l → c ∈ removeFirstDot l := by
  intro l
  induction l with
  | nil => simp
  | cons d ds ih =>
    intro hmem
    by_cases hd : d = '.'
    · subst hd
      rcases List.mem_cons.mp hmem with rfl | h
      · exact absurd rfl hc
      · simpa [removeFirstDot] using h
    · rcases List.mem_cons.mp hmem with rfl | h
      · simp [removeFirstDot, hd]
      · simp [removeFirstDot, hd, ih h]

/-- If some character of `l` is neither a digit nor the dot, then the
`replace(".", "", 1).isdigit()` test fails. -/
theorem pyIsdigit_removeFirstDot_eq_false {c : Char} {l : List Char}
    (hmem : c ∈ l) (hdig : c.isDigit = false) (hdot : c ≠ '.') :
    pyIsdigit (removeFirstDot l) = false := by
  have hc : c ∈ removeFirstDot l := mem_removeFirstDot hdot hmem
  simp only [pyIsdigit, Bool.and_eq_false_iff]
  right
  rw [Bool.eq_false_iff]
  intro hall
  rw [List.all_eq_true] at hall
  exact absurd (hall c hc) (by simp [hdig])

/-- Shape of a list whose `replace(".", "", 1)` is all digits: either all
digits, or digits around a single first dot. -/
theorem removeFirstDot_all_digit : ∀ {l : List Char},
    (removeFirstDot l).all Char.isDigit = true →
    l.all Char.isDigit = true ∨
      ∃ ds₁ ds₂, l = ds₁ ++ '.' :: ds₂ ∧ (ds₁ ++ ds₂).all Char.isDigit = true := by
  intro l
  induction l with
  | nil => intro _; left; rfl
  | cons d ds ih =>
    intro h
    by_cases hd : d = '.'
    · subst hd
      right
      exact ⟨[], ds, rfl, by simpa [removeFirstDot] using h⟩
    · rw [show removeFirstDot (d :: ds) = d :: removeFirstDot ds from by
        simp [removeFirstDot, hd]] at h
      simp only [List.all_cons, Bool.and_eq_true] at h
      rcases ih h.2 with hall | ⟨ds₁, ds₂, rfl, hall⟩
      · left; simp [List.all_cons, h.1, hall]
      · right
        refine ⟨d :: ds₁, ds₂, rfl, ?_⟩
        simpa [List.all_cons, h.1] using hall

theorem removeFirstDot_append_dot {ds₁ : List Char} (h : '.' ∉ ds₁) (ds₂ : List Char) :
    removeFirstDot (ds₁ ++ '.' :: ds₂) = ds₁ ++ ds₂ := by
  induction ds₁ with
  | nil => simp [removeFirstDot]
  | cons d ds ih =>
    have hd : d ≠ '.' := fun hdd => h (hdd ▸ List.mem_cons_self d ds)
    simp only [List.cons_append, removeFirstDot, if_neg hd, List.append_eq]
    rw [ih (fun hm => h (List.mem_cons_of_mem d hm))]

/-! ### Lemmas: `takeWhile` / `dropWhile` over digit runs -/

theorem takeWhile_digits_all {ds : List Char} (h : ds.all Char.isDigit = true) :
    ds.takeWhile Char.isDigit = ds ∧ ds.dropWhile Char.isDigit = [] := by
  induction ds with
  | nil => simp
  | cons d t ih =>
    simp only [List.all_cons, Bool.and_eq_true] at h
    simp [List.takeWhile_cons, List.dropWhile_cons, h.1, ih h.2]

theorem takeWhile_digits_append {ds : List Char} (h : ds.all Char.isDigit = true)
    {c : Char} (hc : c.isDigit = false) (t : List Char) :
    (ds ++ c :: t).takeWhile Char.isDigit = ds ∧
      (ds ++ c :: t).dropWhile Char.isDigit = c :: t := by
  induction ds with
  | nil => simp [List.takeWhile_cons, List.dropWhile_cons, hc]
  | cons d ds' ih =>
    simp only [List.all_cons, Bool.and_eq_true] at h
    simp [List.takeWhile_cons, List.dropWhile_cons, h.1, ih h.2]

/-! ### Lemmas: structure of successful `float()` parses -/

/-- `pyMagParts` on a nonempty all-digit list. -/
theorem pyMagParts_digits {neg : Bool} {ds : List Char}
    (h : ds.all Char.isDigit = true) (hne : ds ≠ []) :
    pyMagParts neg ds = some ⟨neg, ds, [], 0⟩ := by
  obtain ⟨htw, hdw⟩ := takeWhile_digits_all h
  simp [pyMagParts, htw, hdw, hne]

/-- `pyMagParts` on digits surrounding a single dot, at least one digit
overall. -/
theorem pyMagParts_digits_dot {neg : Bool} {ds₁ ds₂ : List Char}
    (h₁ : ds₁.all Char.isDigit = true) (h₂ : ds₂.all Char.isDigit = true)
    (hne : ds₁ ++ ds₂ ≠ []) :
    pyMagParts neg (ds₁ ++ '.' :: ds₂) = some ⟨neg, ds₁, ds₂, 0⟩ := by
  obtain ⟨htw, hdw⟩ := takeWhile_digits_append h₁ (c := '.') (by decide) ds₂
  obtain ⟨htw₂, hdw₂⟩ := takeWhile_digits_all h₂
  have hg : (ds₁.isEmpty && ds₂.isEmpty) = false := by
    cases h1 : ds₁.isEmpty <;> cases h2 : ds₂.isEmpty <;> simp_all [List.isEmpty_iff]
  simp [pyMagParts, htw, hdw, htw₂, hdw₂, hg]

/-- A list passing Python's `replace(".", "", 1).isdigit()` test contains
no whitespace and parses as an unsigned, exponent-free float literal. -/
theorem pyFloatParts_of_isdigit {l : List Char}
    (h : pyIsdigit (removeFirstDot l) = true) :
    pyStrip l = l ∧ ∃ ip fp, pyFloatParts l = some ⟨false, ip, fp, 0⟩ := by
  have hne : removeFirstDot l ≠ [] := by
    intro hl
    rw [hl] at h
    exact absurd h (by decide)
  have hdig : (removeFirstDot l).all Char.isDigit = true := by
    unfold pyIsdigit at h
    rw [Bool.and_eq_true] at h
    exact h.2
  rcases removeFirstDot_all_digit hdig with hall | ⟨ds₁, ds₂, rfl, hall⟩
  · have hlne : l ≠ [] := by
      intro hl
      subst hl
      exact hne rfl
    have hstrip : pyStrip l = l :=
      pyStrip_eq_self fun c hc => not_ws_of_isDigit (List.all_eq_true.mp hall c hc)
    refine ⟨hstrip, l, [], ?_⟩
    cases l with
    | nil => exact absurd rfl hlne
    | cons d t =>
      have hd : d.isDigit = true := List.all_eq_true.mp hall d (by simp)
      unfold pyFloatParts
      rw [if_neg (by simp only [List.headD_cons]; exact ne_plus_of_isDigit hd),
        if_neg (by simp only [List.headD_cons]; exact ne_minus_of_isDigit hd)]
      exact pyMagParts_digits hall hlne
  · have hsplit : (ds₁.all Char.isDigit && ds₂.all Char.isDigit) = true := by
      rw [← List.all_append]
      exact hall
    rw [Bool.and_eq_true] at hsplit
    obtain ⟨h₁, h₂⟩ := hsplit
    have hdot₁ : '.' ∉ ds₁ := fun hm =>
      absurd (List.all_eq_true.mp h₁ '.' hm) (by decide)
    have hne' : ds₁ ++ ds₂ ≠ [] := by
      rw [removeFirstDot_append_dot hdot₁ ds₂] at hne
      exact hne
    have hstrip : pyStrip (ds₁ ++ '.' :: ds₂) = ds₁ ++ '.' :: ds₂ := by
      refine pyStrip_eq_self fun c hc => ?_
      rcases List.mem_append.mp hc with hc₁ | hc₂
      · exact not_ws_of_isDigit (List.all_eq_true.mp h₁ c hc₁)
      · rcases List.mem_cons.mp hc₂ with rfl | hc₃
        · decide
        · exact not_ws_of_isDigit (List.all_eq_true.mp h₂ c hc₃)
    refine ⟨hstrip, ds₁, ds₂, ?_⟩
    have hmag := @pyMagParts_digits_dot false ds₁ ds₂ h₁ h₂ hne'
    cases ds₁ with
    | nil =>
      unfold pyFloatParts
      rw [if_neg (by simp only [List.nil_append, List.headD_cons]; decide),
        if_neg (by simp only [List.nil_append, List.headD_cons]; decide)]
      exact hmag
    | cons d t =>
      have hd : d.isDigit = true := List.all_eq_true.mp h₁ d (by simp)
      unfold pyFloatParts
      have hp₁ : ¬((d :: t ++ '.' :: ds₂).headD ' ' = '+') := by
        simp only [List.cons_append, List.headD_cons]
        exact ne_plus_of_isDigit hd
      have hp₂ : ¬((d :: t ++ '.' :: ds₂).headD ' ' = '-') := by
        simp only [List.cons_append, List.headD_cons]
        exact ne_minus_of_isDigit hd
      rw [if_neg hp₁, if_neg hp₂]
      exact hmag

/-! ### Lemmas: nonnegativity of minus-free parses -/

theorem pyMagParts_neg_eq {neg : Bool} {l : List Char} {p : FloatParts}
    (h : pyMagParts neg l = some p) : p.neg = neg := by
  simp only [pyMagParts] at h
  repeat' split at h
  all_goals first
    | exact Option.noConfusion h
    | (cases h; rfl)
    | (rw [Option.map_eq_some'] at h
       obtain ⟨e, _, rfl⟩ := h
       rfl)

theorem pyFloatParts_neg_false {l : List Char} {p : FloatParts}
    (hm : '-' ∉ l) (h : pyFloatParts l = some p) : p.neg = false := by
  unfold pyFloatParts at h
  split at h
  · exact pyMagParts_neg_eq h
  · split at h
    · exfalso
      cases l with
      | nil => simp at *
      | cons c t =>
        rename_i hcond
        rw [List.headD_cons] at hcond
        exact hm (hcond ▸ List.mem_cons_self c t)
    · exact pyMagParts_neg_eq h

theorem ratOfParts_nonneg {p : FloatParts} (h : p.neg = false) :
    0 ≤ ratOfParts p := by
  unfold ratOfParts
  rw [h]
  simp only [Bool.false_eq_true, if_false, one_mul]
  positivity

theorem pyStrip_subset {l : List Char} : pyStrip l ⊆ l := by
  intro c hc
  unfold pyStrip at hc
  rw [List.mem_reverse] at hc
  have h1 := (List.dropWhile_sublist pyWhitespace
    (l := (l.dropWhile pyWhitespace).reverse)).subset hc
  rw [List.mem_reverse] at h1
  exact (List.dropWhile_sublist pyWhitespace (l := l)).subset h1

theorem strDropRight_subset {s : String} {n : Nat} :
    (strDropRight s n).data ⊆ s.data :=
  fun _ hc => (List.take_sublist _ _).subset hc

/-- A minus-free string that `float()` accepts has a nonnegative value. -/
theorem pyFloat_nonneg {s : String} {q : ℚ}
    (hm : '-' ∉ s.data) (h : pyFloat s = some q) : 0 ≤ q := by
  unfold pyFloat at h
  rw [Option.map_eq_some'] at h
  obtain ⟨p, hp, rfl⟩ := h
  have hm' : '-' ∉ pyStrip s.data := fun hmem => hm (pyStrip_subset hmem)
  exact ratOfParts_nonneg (pyFloatParts_neg_false hm' hp)

/-! ### Evaluation helpers and sanity checks -/

theorem digitsToNat_nil : digitsToNat [] = 0 := rfl

/-- Value of an all-integer, exponent-free, unsigned literal. -/
theorem ratOfParts_false_int (ip : List Char) :
    ratOfParts ⟨false, ip, [], 0⟩ = (digitsToNat ip : ℚ) := by
  simp [ratOfParts, digitsToNat_nil]

/-! ### Lemmas: the suffix loop -/

theorem suffixLoop_ok (v : String) :
    ∀ tbl : List (String × ℚ), ∃ q, suffixLoop v tbl = .ok q
  | [] => ⟨0, rfl⟩
  | (suf, mult) :: rest => by
    by_cases hm : strEndswith v suf = true
    · cases hf : pyFloat (strDropRight v suf.length) with
      | none => exact ⟨0, by simp [suffixLoop, hm, hf]⟩
      | some q => exact ⟨q * mult, by simp [suffixLoop, hm, hf]⟩
    · obtain ⟨q, hq⟩ := suffixLoop_ok v rest
      exact ⟨q, by simp [suffixLoop, hm, hq]⟩

theorem suffixLoop_all_fail (v : String) :
    ∀ tbl : List (String × ℚ), (∀ e ∈ tbl, strEndswith v e.1 = false) →
      suffixLoop v tbl = .ok 0
  | [], _ => rfl
  | (suf, mult) :: rest, h => by
    have h1 : strEndswith v suf = false := h (suf, mult) (by simp)
    simp only [suffixLoop, h1, Bool.false_eq_true, if_false]
    exact suffixLoop_all_fail v rest fun e he => h e (List.mem_cons_of_mem _ he)

/-- The plain-number branch always has a successful `float()` parse. -/
theorem pyFloat_isSome_of_isdigit {s : String}
    (hd : pyIsdigit (removeFirstDot s.data) = true) :
    ∃ q, pyFloat s = some q := by
  obtain ⟨hstrip, ip, fp, hparts⟩ := pyFloatParts_of_isdigit hd
  refine ⟨ratOfParts ⟨false, ip, fp, 0⟩, ?_⟩
  unfold pyFloat
  rw [hstrip, hparts]
  rfl

/-! ### Claim theorems: resource value parser (C2, C3, C4) -/

/-- C2, counterexample: on the input `"xm"` — which ends in the recognized
millicore suffix `"m"` with a non-numeric remainder — `parse_resource_value`
does not return `0.0`; the unguarded `float("x")` raises `ValueError`,
refuting "returns a float and never raises ... the result is 0.0". -/
theorem parse_resource_value_raises_on_bad_millicore :
    parse_resource_value (some "xm") = .error "ValueError" := by
  have hp : pyFloatParts (pyStrip (strDropRight "xm" 1).data) = none := by decide
  simp +decide [parse_resource_value, pyFloat, hp]

/-- C2, amended: `parse_resource_value` never raises on inputs that do not
end in `"m"`; when no known suffix matches and the plain-number test fails
it returns `0.0`; but on inputs ending in `"m"` whose remainder is not a
valid float literal, the `ValueError` of the unguarded `float()` call
propagates. -/
theorem parse_resource_value_error_policy :
    (∀ s : String, strEndswith s "m" = false →
      ∃ q, parse_resource_value (some s) = .ok q) ∧
    (∀ s : String, s ≠ "" → strEndswith s "m" = false →
      pyIsdigit (removeFirstDot s.data) = false →
      (∀ e ∈ multipliers, strEndswith s e.1 = false) →
      parse_resource_value (some s) = .ok 0) ∧
    (∀ s : String, s ≠ "" → strEndswith s "m" = true →
      pyFloat (strDropRight s 1) = none →
      parse_resource_value (some s) = .error "ValueError") := by
  refine ⟨?_, ?_, ?_⟩
  · intro s hm
    by_cases hs : s = ""
    · exact ⟨0, by simp [parse_resource_value, hs]⟩
    · by_cases hdig : pyIsdigit (removeFirstDot s.data) = true
      · obtain ⟨q, hq⟩ := pyFloat_isSome_of_isdigit hdig
        exact ⟨q, by simp [parse_resource_value, hs, hm, hdig, hq]⟩
      · obtain ⟨q, hq⟩ := suffixLoop_ok s multipliers
        exact ⟨q, by simp [parse_resource_value, hs, hm, hdig, hq]⟩
  · intro s hs hm hdig hloop
    have hl : suffixLoop s multipliers = .ok 0 :=
      suffixLoop_all_fail s multipliers hloop
    simp [parse_resource_value, hs, hm, hdig, hl]
  · intro s hs hm hfloat
    simp [parse_resource_value, hs, hm, hfloat]

/-- C2, witness: the amended theorem applied at `"7"` (not `m`-suffixed),
`"zq"` (no suffix matches, not a plain number) and `"xm"` (`m`-suffixed,
non-numeric remainder). -/
theorem parse_resource_value_error_policy_witness :
    (∃ q, parse_resource_value (some "7") = .ok q) ∧
    parse_resource_value (some "zq") = .ok 0 ∧
    parse_resource_value (some "xm") = .error "ValueError" := by
  refine ⟨parse_resource_value_error_policy.1 "7" (by decide),
    parse_resource_value_error_policy.2.1 "zq" (by decide) (by decide)
      (by decide) (by decide),
    parse_resource_value_error_policy.2.2 "xm" (by decide) (by decide) ?_⟩
  have hp : pyFloatParts (pyStrip (strDropRight "xm" 1).data) = none := by decide
  simp [pyFloat, hp]

/-- C3: `parse_resource_value` returns exactly the documented values on the
specification's probe inputs: `"500m"` ↦ 0.5, `"2"` ↦ 2.0,
`"128Mi"` ↦ 134217728.0, `"1Ki"` ↦ 1024.0, `""` ↦ 0.0, `"garbage"` ↦ 0.0
and `None` ↦ 0.0. -/
theorem parse_resource_value_probe_values :
    parse_resource_value (some "500m") = .ok (1 / 2) ∧
    parse_resource_value (some "2") = .ok 2 ∧
    parse_resource_value (some "128Mi") = .ok 134217728 ∧
    parse_resource_value (some "1Ki") = .ok 1024 ∧
    parse_resource_value (some "") = .ok 0 ∧
    parse_resource_value (some "garbage") = .ok 0 ∧
    parse_resource_value none = .ok 0 := by
  refine ⟨?_, ?_, ?_, ?_, by simp [parse_resource_value], ?_, rfl⟩
  · have hp : pyFloatParts (pyStrip (strDropRight "500m" 1).data) =
        some ⟨false, ['5', '0', '0'], [], 0⟩ := by decide
    have hd : digitsToNat ['5', '0', '0'] = 500 := by decide
    simp +decide [parse_resource_value, pyFloat, hp, ratOfParts_false_int, hd]
    norm_num
  · have hp : pyFloatParts (pyStrip ("2" : String).data) =
        some ⟨false, ['2'], [], 0⟩ := by decide
    have hd : digitsToNat ['2'] = 2 := by decide
    simp +decide [parse_resource_value, pyFloat, hp, ratOfParts_false_int, hd]
  · have hp : pyFloatParts (pyStrip (strDropRight "128Mi" "Mi".length).data) =
        some ⟨false, ['1', '2', '8'], [], 0⟩ := by decide
    have hd : digitsToNat ['1', '2', '8'] = 128 := by decide
    simp +decide [parse_resource_value, suffixLoop, multipliers, pyFloat, hp,
      ratOfParts_false_int, hd]
    norm_num
  · have hp : pyFloatParts (pyStrip (strDropRight "1Ki" "Ki".length).data) =
        some ⟨false, ['1'], [], 0⟩ := by decide
    have hd : digitsToNat ['1'] = 1 := by decide
    simp +decide [parse_resource_value, suffixLoop, multipliers, pyFloat, hp,
      ratOfParts_false_int, hd]
  · simp +decide [parse_resource_value, suffixLoop, multipliers]

/-! ### Lemmas: suffix matching -/

theorem strEndswith_iff {s suf : String} :
    strEndswith s suf = true ↔ suf.data <:+ s.data := by
  unfold strEndswith
  exact List.isSuffixOf_iff_suffix

theorem suffix_of_append_pair {a b c d : Char} {l : List Char} :
    [a, b] <:+ l ++ [c, d] ↔ a = c ∧ b = d := by
  constructor
  · rintro ⟨t, ht⟩
    obtain ⟨-, h2⟩ := List.append_inj' ht rfl
    simpa using h2
  · rintro ⟨rfl, rfl⟩
    exact ⟨l, rfl⟩

theorem suffix_of_append_singleton {a c d : Char} {l : List Char} :
    [a] <:+ l ++ [c, d] ↔ a = d := by
  have hre : l ++ [c, d] = (l ++ [c]) ++ [d] := by simp
  rw [hre]
  constructor
  · rintro ⟨t, ht⟩
    obtain ⟨-, h2⟩ := List.append_inj' ht rfl
    simpa using h2
  · rintro rfl
    exact ⟨l ++ [c], rfl⟩

theorem strDropRight_append (s t : String) :
    strDropRight (s ++ t) t.length = s := by
  apply String.ext
  show ((s ++ t).data).take ((s ++ t).data.length - t.length) = s.data
  rw [String.data_append]
  have hlen : (s.data ++ t.data).length - t.length = s.data.length := by
    rw [List.length_append]
    have : t.length = t.data.length := rfl
    omega
  rw [hlen, List.take_left]

theorem suffixLoop_cons_no {v suf : String} {mult : ℚ}
    {rest : List (String × ℚ)} (h : strEndswith v suf = false) :
    suffixLoop v ((suf, mult) :: rest) = suffixLoop v rest := by
  simp [suffixLoop, h]

theorem suffixLoop_cons_yes {v suf : String} {mult q : ℚ}
    {rest : List (String × ℚ)} (h : strEndswith v suf = true)
    (hf : pyFloat (strDropRight v suf.length) = some q) :
    suffixLoop v ((suf, mult) :: rest) = .ok (q * mult) := by
  simp [suffixLoop, h, hf]

/-- A nonempty string failing the millicore and plain-number tests reaches
the suffix loop. -/
theorem parse_eq_suffixLoop {s : String}
    (hne : s ≠ "")
    (hmm : strEndswith s "m" = false)
    (hdig : pyIsdigit (removeFirstDot s.data) = false) :
    parse_resource_value (some s) = suffixLoop s multipliers := by
  simp [parse_resource_value, hne, hmm, hdig]

theorem strEndswith_append_self (s suf : String) :
    strEndswith (s ++ suf) suf = true := by
  rw [strEndswith_iff, String.data_append]
  exact ⟨s.data, rfl⟩

theorem strEndswith_append_pair_ne {s suf t : String} {a b c d : Char}
    (hsuf : suf.data = [a, b]) (ht : t.data = [c, d]) (hne : c ≠ a) :
    strEndswith (s ++ suf) t = false := by
  rw [Bool.eq_false_iff]
  intro h
  rw [strEndswith_iff, String.data_append, hsuf, ht, suffix_of_append_pair] at h
  exact hne h.1

/-- Appending a suffix whose second character is the letter `i` lands in
the suffix loop: the result is nonempty, does not end in `m`, and fails the
plain-number test. -/
theorem parse_append_letter_i (s suf : String) (a : Char)
    (hsuf : suf.data = [a, 'i']) :
    parse_resource_value (some (s ++ suf)) = suffixLoop (s ++ suf) multipliers := by
  have hvdata : (s ++ suf).data = s.data ++ [a, 'i'] := by
    rw [String.data_append, hsuf]
  have hne : (s ++ suf) ≠ "" := by
    intro h
    have hd : (s ++ suf).data = [] := by rw [h]
    rw [hvdata] at hd
    simp at hd
  have hmm : strEndswith (s ++ suf) "m" = false := by
    rw [Bool.eq_false_iff]
    intro h
    rw [strEndswith_iff, show ("m" : String).data = ['m'] from rfl, hvdata,
      suffix_of_append_singleton] at h
    exact absurd h (by decide)
  have hdig : pyIsdigit (removeFirstDot (s ++ suf).data) = false := by
    rw [hvdata]
    exact pyIsdigit_removeFirstDot_eq_false (c := 'i') (by simp) (by decide) (by decide)
  exact parse_eq_suffixLoop hne hmm hdig

/-- C4: for every numeric remainder, each two-character binary suffix
(`Ki`, `Mi`, `Gi`, `Ti`) is matched by the suffix loop before any
overlapping one-character suffix, and contributes its own multiplier
(1024, 1024², 1024³, 1024⁴): `parse_resource_value (x ++ "Ki") = x * 1024`
and never the `K = 1000` interpretation. -/
theorem parse_resource_value_two_char_suffix :
    ∀ suf mult, (suf, mult) ∈
      ([("Ki", (1024 : ℚ)), ("Mi", 1024 ^ 2), ("Gi", 1024 ^ 3), ("Ti", 1024 ^ 4)] :
        List (String × ℚ)) →
    ∀ (s : String) (q : ℚ), pyFloat s = some q →
      parse_resource_value (some (s ++ suf)) = .ok (q * mult) := by
  intro suf mult hmem s q hq
  simp only [List.mem_cons, List.not_mem_nil, or_false, Prod.mk.injEq] at hmem
  rcases hmem with ⟨rfl, rfl⟩ | ⟨rfl, rfl⟩ | ⟨rfl, rfl⟩ | ⟨rfl, rfl⟩
  · have hf : pyFloat (strDropRight (s ++ "Ki") ("Ki" : String).length) = some q := by
      rw [strDropRight_append]
      exact hq
    rw [parse_append_letter_i s "Ki" 'K' rfl]
    unfold multipliers
    rw [suffixLoop_cons_yes (strEndswith_append_self s "Ki") hf]
  · have hf : pyFloat (strDropRight (s ++ "Mi") ("Mi" : String).length) = some q := by
      rw [strDropRight_append]
      exact hq
    rw [parse_append_letter_i s "Mi" 'M' rfl]
    unfold multipliers
    rw [suffixLoop_cons_no (strEndswith_append_pair_ne rfl rfl (by decide)),
      suffixLoop_cons_yes (strEndswith_append_self s "Mi") hf]
  · have hf : pyFloat (strDropRight (s ++ "Gi") ("Gi" : String).length) = some q := by
      rw [strDropRight_append]
      exact hq
    rw [parse_append_letter_i s "Gi" 'G' rfl]
    unfold multipliers
    rw [suffixLoop_cons_no (strEndswith_append_pair_ne rfl rfl (by decide)),
      suffixLoop_cons_no (strEndswith_append_pair_ne rfl rfl (by decide)),
      suffixLoop_cons_yes (strEndswith_append_self s "Gi") hf]
  · have hf : pyFloat (strDropRight (s ++ "Ti") ("Ti" : String).length) = some q := by
      rw [strDropRight_append]
      exact hq
    rw [parse_append_letter_i s "Ti" 'T' rfl]
    unfold multipliers
    rw [suffixLoop_cons_no (strEndswith_append_pair_ne rfl rfl (by decide)),
      suffixLoop_cons_no (strEndswith_append_pair_ne rfl rfl (by decide)),
      suffixLoop_cons_no (strEndswith_append_pair_ne rfl rfl (by decide)),
      suffixLoop_cons_yes (strEndswith_append_self s "Ti") hf]

/-- C4, witness: the theorem applied at suffix `"Ki"` and remainder `"3"`:
`parse_resource_value "3Ki" = 3 * 1024`. -/
theorem parse_resource_value_two_char_suffix_witness :
    pyFloat "3" = some 3 ∧
    parse_resource_value (some ("3" ++ "Ki")) = .ok (3 * 1024) := by
  have h3 : pyFloat "3" = some 3 := by
    have hp : pyFloatParts (pyStrip ("3" : String).data) =
        some ⟨false, ['3'], [], 0⟩ := by decide
    simp [pyFloat, hp, ratOfParts_false_int,
      show digitsToNat ['3'] = 3 from by decide]
  exact ⟨h3, parse_resource_value_two_char_suffix "Ki" 1024
    (List.mem_cons_self _ _) "3" 3 h3⟩

/-! ### Claim theorem: pod inventory fetch (C1) -/

/-- C1: evidence for the code bug.  `get_pods` evaluated at an executor
failure (`run_cmd` returned `("", stderr, 1)`) does not return an empty
frame: `out` is bound to the whole `(stdout, stderr, returncode)` tuple,
which is always truthy, so `if not out` never fires, and `json.loads(out)`
applied to the tuple raises `TypeError`. -/
theorem get_pods_raises_on_executor_failure :
    get_pods ⟨"", "kubectl: connection refused", 1⟩ = .error "TypeError" := rfl

/-! ### Lemmas: the stable sort of `decodePods` -/

theorem podLE_trans (a b c : PodRecord)
    (hab : podLE a b = true) (hbc : podLE b c = true) : podLE a c = true := by
  simp only [podLE, decide_eq_true_eq] at *
  exact le_trans hab hbc

theorem podLE_total (a b : PodRecord) : (podLE a b || podLE b a) = true := by
  simp only [podLE, Bool.or_eq_true, decide_eq_true_eq]
  exact le_total _ _

/-- Sorting with `podLE` is stable: the rows of any one key class keep
their original relative order. -/
theorem mergeSort_filter_key (rows : List PodRecord) (k : String × String) :
    (rows.mergeSort podLE).filter (fun r => podKey r == k) =
      rows.filter (fun r => podKey r == k) := by
  have hkey : ∀ x ∈ rows.filter (fun r => podKey r == k), podKey x = k := by
    intro x hx
    have := (List.mem_filter.mp hx).2
    simpa using this
  have hpair : (rows.filter (fun r => podKey r == k)).Pairwise
      (fun a b => podLE a b = true) := by
    apply List.pairwise_of_forall_mem_list
    intro a ha b hb
    simp [podLE, hkey a ha, hkey b hb]
  have hsub : (rows.filter (fun r => podKey r == k)).Sublist
      (rows.mergeSort podLE) :=
    List.sublist_mergeSort podLE_trans podLE_total hpair (List.filter_sublist rows)
  have hsub2 : (rows.filter (fun r => podKey r == k)).Sublist
      ((rows.mergeSort podLE).filter (fun r => podKey r == k)) := by
    have hstep := hsub.filter (fun r => podKey r == k)
    have hfil : (rows.filter (fun r => podKey r == k)).filter
        (fun r => podKey r == k) = rows.filter (fun r => podKey r == k) :=
      List.filter_eq_self.mpr fun a ha => (List.mem_filter.mp ha).2
    rwa [hfil] at hstep
  have hlen : ((rows.mergeSort podLE).filter (fun r => podKey r == k)).length =
      (rows.filter (fun r => podKey r == k)).length := by
    rw [← List.countP_eq_length_filter, ← List.countP_eq_length_filter]
    exact (List.mergeSort_perm rows podLE).countP_eq _
  exact (hsub2.eq_of_length hlen.symm).symm

/-- C5: `decodePods` on `N` items returns exactly `N` records, sorted
ascending by `(microservice, pod)`; the sort is stable (each key class
keeps its encounter order); and an item with all fields missing decodes to
a record of empty strings. -/
theorem decodePods_spec (items : List PodItem) :
    (decodePods items).length = items.length ∧
    (decodePods items).Pairwise (fun a b => podLE a b = true) ∧
    (∀ k : String × String,
      (decodePods items).filter (fun r => podKey r == k) =
        (items.map podRow).filter (fun r => podKey r == k)) ∧
    podRow ⟨none, none, none, none, none⟩ = ⟨"", "", "", "", ""⟩ := by
  by_cases hrows : (items.map podRow).isEmpty
  · have hnil : items.map podRow = [] := by
      rwa [List.isEmpty_iff] at hrows
    have hitems : items = [] := by
      cases items with
      | nil => rfl
      | cons a t => simp at hnil
    subst hitems
    exact ⟨rfl, List.Pairwise.nil, fun k => rfl, rfl⟩
  · have hdef : decodePods items = (items.map podRow).mergeSort podLE := by
      simp only [decodePods, hrows, Bool.false_eq_true, if_false]
    refine ⟨?_, ?_, ?_, rfl⟩
    · rw [hdef, List.length_mergeSort, List.length_map]
    · rw [hdef]
      exact List.sorted_mergeSort podLE_trans podLE_total _
    · intro k
      rw [hdef]
      exact mergeSort_filter_key _ k

/-! ### Lemmas: the left merge of `get_node_info` -/

theorem flatMap_singleton_eq_map {α β : Type} (l : List α) (f : α → List β)
    (g : α → β) (h : ∀ a, f a = [g a]) : l.flatMap f = l.map g := by
  induction l with
  | nil => rfl
  | cons a t ih => simp [List.flatMap_cons, h a, ih]

/-- With pairwise-distinct utilization node names, filtering by a node name
finds at most one row, namely the one `find?` returns. -/
theorem filter_node_eq_find_toList (utils : List NodeUtilization) (x : String)
    (h : (utils.map (fun u => u.node)).Nodup) :
    utils.filter (fun u => u.node == x) =
      (utils.find? (fun u => u.node == x)).toList := by
  induction utils with
  | nil => rfl
  | cons u us ih =>
    simp only [List.map_cons, List.nodup_cons] at h
    by_cases hu : (u.node == x) = true
    · have hux : u.node = x := by simpa using hu
      have hfil : us.filter (fun w => w.node == x) = [] := by
        rw [List.filter_eq_nil_iff]
        intro w hw
        intro hwx
        apply h.1
        have hwx' : w.node = x := by simpa using hwx
        rw [hux, ← hwx']
        exact List.mem_map.mpr ⟨w, hw, rfl⟩
      simp [List.filter_cons, List.find?_cons, hu, hfil]
    · have hu' : (u.node == x) = false := by simpa using hu
      simp [List.filter_cons, List.find?_cons, hu', ih h.2]

/-- C6, counterexample: one capacity row joined against two utilization
rows that share its node name appears twice in the view, not exactly
once. -/
theorem buildNodeView_duplicates_capacity_row :
    buildNodeView [capN1] [utilA, utilB] =
      [⟨capN1, some utilA⟩, ⟨capN1, some utilB⟩] ∧
    (buildNodeView [capN1] [utilA, utilB]).length = 2 := ⟨rfl, rfl⟩

/-- C6, amended: provided the utilization node names are pairwise distinct
(which holds for genuine `kubectl top nodes` output), every capacity row
yields exactly one view row, in order: the view is exactly the capacity
rows each paired with its optional matching utilization row.  With
duplicate utilization node names, `pd.merge(..., how="left")` instead
repeats a capacity row once per match. -/
theorem buildNodeView_one_row_per_capacity (caps : List NodeCapacity)
    (utils : List NodeUtilization)
    (h : (utils.map (fun u => u.node)).Nodup) :
    buildNodeView caps utils =
      caps.map (fun c => ⟨c, utils.find? (fun u => u.node == c.node)⟩) := by
  by_cases hc : caps.isEmpty
  · have : caps = [] := by rwa [List.isEmpty_iff] at hc
    subst this
    simp [buildNodeView]
  · by_cases hu : utils.isEmpty
    · have : utils = [] := by rwa [List.isEmpty_iff] at hu
      subst this
      simp [buildNodeView]
    · have hcond : (!caps.isEmpty && !utils.isEmpty) = true := by
        simp [hc, hu]
      rw [buildNodeView, if_pos hcond]
      unfold leftMergeOnNode
      apply flatMap_singleton_eq_map
      intro c
      rw [filter_node_eq_find_toList utils c.node h]
      cases hfind : utils.find? (fun u => u.node == c.node) with
      | none => simp
      | some u => simp

/-- C6, witness: the amended theorem applied to one capacity row and one
matching utilization row (distinct node names trivially). -/
theorem buildNodeView_one_row_per_capacity_witness :
    buildNodeView [capN1] [utilA] = [⟨capN1, some utilA⟩] :=
  (buildNodeView_one_row_per_capacity [capN1] [utilA] (by decide)).trans rfl

/-- C7: with an empty utilization frame no join is attempted: the view is
exactly the capacity rows, one row each, with the utilization side absent
(`none`, not zero) in every row. -/
theorem buildNodeView_empty_utils (caps : List NodeCapacity) :
    buildNodeView caps [] = caps.map (fun c => ⟨c, none⟩) ∧
    (buildNodeView caps []).length = caps.length ∧
    ∀ v ∈ buildNodeView caps [], v.util = none := by
  have h : buildNodeView caps [] = caps.map (fun c => ⟨c, none⟩) := by
    simp [buildNodeView]
  refine ⟨h, by rw [h, List.length_map], ?_⟩
  intro v hv
  rw [h] at hv
  obtain ⟨c, -, rfl⟩ := List.mem_map.mp hv
  rfl

/-- C7, witness: the theorem applied at the one-row capacity list: the
view keeps the row and its utilization side is absent. -/
theorem buildNodeView_empty_utils_witness :
    buildNodeView [capN1] [] = [⟨capN1, none⟩] ∧
    (⟨capN1, none⟩ : NodeView).util = none := by
  refine ⟨(buildNodeView_empty_utils [capN1]).1.trans rfl, ?_⟩
  exact (buildNodeView_empty_utils [capN1]).2.2 ⟨capN1, none⟩
    (List.mem_cons_self (⟨capN1, none⟩ : NodeView) [])

/-- C10: with an empty capacity frame the guard skips the join entirely, so
utilization-only rows never appear: the view is empty whatever the
(non-empty) utilization frame contains. -/
theorem buildNodeView_empty_caps (utils : List NodeUtilization)
    (h : utils ≠ []) : buildNodeView [] utils = [] := by
  simp [buildNodeView]

/-- C10, witness: the theorem applied to a nonempty utilization list. -/
theorem buildNodeView_empty_caps_witness : buildNodeView [] [utilA] = [] :=
  buildNodeView_empty_caps [utilA] (by simp)

/-! ### Lemmas: the pivot table (C8) -/

theorem sum_map_zero {α : Type} (l : List α) :
    (l.map (fun _ => (0 : Nat))).sum = 0 := by
  induction l with
  | nil => rfl
  | cons a t ih => simp [ih]

theorem sum_map_add_nat {α : Type} (l : List α) (f g : α → Nat) :
    (l.map (fun x => f x + g x)).sum = (l.map f).sum + (l.map g).sum := by
  induction l with
  | nil => rfl
  | cons a t ih =>
    simp only [List.map_cons, List.sum_cons, ih]
    omega

/-- Looking a key up in the graph of a function over a duplicate-free key
list. -/
theorem lookup_map_graph {α β : Type} [BEq α] [LawfulBEq α] [DecidableEq α]
    (f : α → β) (keys : List α) (k0 : α) :
    (keys.map (fun k => (k, f k))).lookup k0 =
      if k0 ∈ keys then some (f k0) else none := by
  induction keys with
  | nil => simp [List.lookup]
  | cons a t ih =>
    rw [List.map_cons, List.lookup_cons]
    by_cases h : (k0 == a) = true
    · have he : k0 = a := eq_of_beq h
      subst he
      simp [h]
    · have hne : k0 ≠ a := fun hcc => h (by simp [hcc])
      simp [h, ih, hne]

theorem sum_indicator_nodup (x y n : String) (L : List String) (hL : L.Nodup) :
    (L.map (fun m => if x = n ∧ y = m then 1 else 0)).sum
      = if x = n ∧ y ∈ L then 1 else 0 := by
  induction L with
  | nil => simp
  | cons a t ih =>
    simp only [List.nodup_cons] at hL
    rw [List.map_cons, List.sum_cons, ih hL.2]
    by_cases hx : x = n
    · by_cases hy : y = a
      · subst hy
        rw [if_pos ⟨hx, rfl⟩, if_neg (fun hc => hL.1 hc.2),
          if_pos ⟨hx, List.mem_cons_self y t⟩]
      · by_cases hyt : y ∈ t
        · rw [if_neg (fun hc => hy hc.2), if_pos ⟨hx, hyt⟩,
            if_pos ⟨hx, List.mem_cons_of_mem a hyt⟩]
        · rw [if_neg (fun hc => hy hc.2), if_neg (fun hc => hyt hc.2),
            if_neg (fun hc => (List.mem_cons.mp hc.2).elim hy hyt)]
    · simp [hx]

/-- Summing per-microservice pair counts over a duplicate-free column list
counts the pods on the node whose microservice is listed. -/
theorem sum_counts (n : String) (L : List String) (hL : L.Nodup)
    (pods : List PodRecord) :
    (L.map (fun m =>
        pods.countP (fun r => (r.node, r.microservice) == (n, m)))).sum
      = pods.countP (fun r => r.node == n && decide (r.microservice ∈ L)) := by
  induction pods with
  | nil => simp [List.countP_nil, sum_map_zero]
  | cons r pods' ih =>
    have hsplit : (L.map (fun m =>
        pods'.countP (fun r => (r.node, r.microservice) == (n, m)) +
          if ((r.node, r.microservice) == (n, m)) = true then 1 else 0)).sum =
        (L.map (fun m =>
          pods'.countP (fun r => (r.node, r.microservice) == (n, m)))).sum +
        (L.map (fun m =>
          if ((r.node, r.microservice) == (n, m)) = true then 1 else 0)).sum :=
      sum_map_add_nat L _ _
    have hind : (L.map (fun m =>
        if ((r.node, r.microservice) == (n, m)) = true then 1 else 0)).sum =
        if r.node = n ∧ r.microservice ∈ L then 1 else 0 := by
      have := sum_indicator_nodup r.node r.microservice n L hL
      simp only [beq_iff_eq, Prod.mk.injEq] at *
      exact this
    simp only [List.countP_cons, hsplit, hind, ih]
    have hq : ((r.node == n && decide (r.microservice ∈ L)) = true) ↔
        (r.node = n ∧ r.microservice ∈ L) := by
      simp
    by_cases hc : r.node = n ∧ r.microservice ∈ L
    · rw [if_pos hc, if_pos (hq.mpr hc)]
    · rw [if_neg hc, if_neg (fun hb => hc (hq.mp hb))]

/-- C8: in the pivot, every cell is the exact number of pod records with
that (node, microservice) pair; unobserved combinations are 0; the row
labels are exactly the observed node names and the column labels exactly
the observed microservice names; and each row sums to the per-node pod
count. -/
theorem pivot_spec (pods : List PodRecord) :
    (∀ n m : String, pivotCell pods n m =
      (pods.filter (fun r => (r.node, r.microservice) == (n, m))).length) ∧
    (∀ n m : String, (n, m) ∉ pods.map (fun r => (r.node, r.microservice)) →
      pivotCell pods n m = 0) ∧
    (∀ n : String, n ∈ pivotRowLabels pods ↔ ∃ r ∈ pods, r.node = n) ∧
    (∀ m : String, m ∈ pivotColLabels pods ↔ ∃ r ∈ pods, r.microservice = m) ∧
    (∀ n : String,
      ((pivotColLabels pods).map (fun m => pivotCell pods n m)).sum =
        countPodsPerNode pods n) := by
  have hcell : ∀ n m : String, pivotCell pods n m =
      (pods.filter (fun r => (r.node, r.microservice) == (n, m))).length := by
    intro n m
    unfold pivotCell groupByNodeService
    rw [lookup_map_graph
      (fun k => (pods.filter (fun r => (r.node, r.microservice) == k)).length)
      ((pods.map (fun r => (r.node, r.microservice))).dedup) (n, m)]
    by_cases h : (n, m) ∈ (pods.map (fun r => (r.node, r.microservice))).dedup
    · simp [h]
    · rw [if_neg h, Option.getD_none]
      symm
      rw [List.length_eq_zero, List.filter_eq_nil_iff]
      intro r hr hbeq
      apply h
      rw [List.mem_dedup]
      exact List.mem_map.mpr ⟨r, hr, by simpa using hbeq⟩
  refine ⟨hcell, ?_, ?_, ?_, ?_⟩
  · intro n m hobs
    rw [hcell n m, List.length_eq_zero, List.filter_eq_nil_iff]
    intro r hr hbeq
    apply hobs
    exact List.mem_map.mpr ⟨r, hr, by simpa using hbeq⟩
  · intro n
    simp [pivotRowLabels, List.mem_dedup, List.mem_map]
  · intro m
    simp [pivotColLabels, List.mem_dedup, List.mem_map]
  · intro n
    have hL : (pivotColLabels pods).Nodup := List.nodup_dedup _
    calc ((pivotColLabels pods).map (fun m => pivotCell pods n m)).sum
        = ((pivotColLabels pods).map (fun m =>
            pods.countP (fun r => (r.node, r.microservice) == (n, m)))).sum := by
          apply congrArg
          apply List.map_congr_left
          intro m _
          rw [hcell n m, List.countP_eq_length_filter]
      _ = pods.countP (fun r =>
            r.node == n && decide (r.microservice ∈ pivotColLabels pods)) :=
          sum_counts n _ hL pods
      _ = pods.countP (fun r => r.node == n) := by
          apply List.countP_congr
          intro r hr
          have hm : r.microservice ∈ pivotColLabels pods := by
            rw [pivotColLabels, List.mem_dedup]
            exact List.mem_map.mpr ⟨r, hr, rfl⟩
          simp [hm]
      _ = countPodsPerNode pods n := by
          rw [countPodsPerNode, List.countP_eq_length_filter]

/-- C8, witness: the unobserved-combination clause applied to the
specification scenario: microservice `svcB` never runs on `n1`, so its
cell there is 0. -/
theorem pivot_spec_witness : pivotCell demoPods "n1" "svcB" = 0 :=
  (pivot_spec demoPods).2.1 "n1" "svcB" (by decide)

/-! ### Lemmas: nonnegativity through `parse_resource_value` (C9) -/

theorem multipliers_nonneg : ∀ e ∈ multipliers, 0 ≤ e.2 := by
  intro e he
  fin_cases he <;> norm_num

theorem suffixLoop_nonneg {v : String} (hm : '-' ∉ v.data) :
    ∀ tbl : List (String × ℚ), (∀ e ∈ tbl, 0 ≤ e.2) →
      ∀ q : ℚ, suffixLoop v tbl = .ok q → 0 ≤ q := by
  intro tbl
  induction tbl with
  | nil =>
    intro _ q h
    have h0 : (0 : ℚ) = q := Except.ok.inj h
    rw [← h0]
  | cons e rest ih =>
    obtain ⟨suf, mult⟩ := e
    intro htbl q h
    by_cases hs : strEndswith v suf = true
    · rw [suffixLoop, if_pos hs] at h
      cases hf : pyFloat (strDropRight v suf.length) with
      | none =>
        rw [hf] at h
        have h0 : (0 : ℚ) = q := Except.ok.inj h
        rw [← h0]
      | some q' =>
        rw [hf] at h
        have h0 : q' * mult = q := Except.ok.inj h
        rw [← h0]
        have hq' : 0 ≤ q' := pyFloat_nonneg
          (fun hc => hm (strDropRight_subset hc)) hf
        have hmult : 0 ≤ mult := htbl (suf, mult) (List.mem_cons_self _ _)
        exact mul_nonneg hq' hmult
    · rw [suffixLoop, if_neg hs] at h
      exact ih (fun e he => htbl e (List.mem_cons_of_mem _ he)) q h

/-- `parse_resource_value` never returns a negative value on a minus-free
input. -/
theorem parse_resource_value_nonneg {v : Option String} {q : ℚ}
    (hm : ∀ s, v = some s → '-' ∉ s.data)
    (h : parse_resource_value v = .ok q) : 0 ≤ q := by
  match v with
  | none =>
    have h0 : (0 : ℚ) = q := Except.ok.inj h
    rw [← h0]
  | some s =>
    have hms : '-' ∉ s.data := hm s rfl
    by_cases hempty : s = ""
    · rw [parse_resource_value, if_pos hempty] at h
      have h0 : (0 : ℚ) = q := Except.ok.inj h
      rw [← h0]
    · by_cases hm1 : strEndswith s "m" = true
      · rw [parse_resource_value, if_neg hempty, if_pos hm1] at h
        cases hf : pyFloat (strDropRight s 1) with
        | none =>
          rw [hf] at h
          exact absurd h (by simp)
        | some q' =>
          rw [hf] at h
          have h0 : q' / 1000 = q := Except.ok.inj h
          rw [← h0]
          have hq' : 0 ≤ q' := pyFloat_nonneg
            (fun hc => hms (strDropRight_subset hc)) hf
          positivity
      · by_cases hdig : pyIsdigit (removeFirstDot s.data) = true
        · rw [parse_resource_value, if_neg hempty, if_neg (by simp [hm1]),
            if_pos hdig] at h
          cases hf : pyFloat s with
          | none =>
            rw [hf] at h
            exact absurd h (by simp)
          | some q' =>
            rw [hf] at h
            have h0 : q' = q := Except.ok.inj h
            rw [← h0]
            exact pyFloat_nonneg hms hf
        · rw [parse_resource_value, if_neg hempty, if_neg (by simp [hm1]),
            if_neg (by simp [hdig])] at h
          exact suffixLoop_nonneg hms multipliers multipliers_nonneg q h

theorem mapM_ok_forall {α β : Type} (f : α → Except String β) :
    ∀ (l : List α) (out : List β), l.mapM f = .ok out →
      ∀ b ∈ out, ∃ a ∈ l, f a = .ok b := by
  intro l
  induction l with
  | nil =>
    intro out h b hb
    have : ([] : List β) = out := Except.ok.inj h
    subst this
    simp at hb
  | cons a t ih =>
    intro out h b hb
    rw [List.mapM_cons] at h
    cases hfa : f a with
    | error e =>
      rw [hfa] at h
      exact absurd h (by simp [Bind.bind, Except.bind])
    | ok x =>
      rw [hfa] at h
      cases hft : t.mapM f with
      | error e =>
        rw [hft] at h
        exact absurd h (by simp [Bind.bind, Except.bind])
      | ok xs =>
        rw [hft] at h
        simp only [Bind.bind, Except.bind, pure, Except.pure] at h
        have hxs : x :: xs = out := Except.ok.inj h
        subst hxs
        rcases List.mem_cons.mp hb with rfl | hbx
        · exact ⟨a, List.mem_cons_self a t, hfa⟩
        · obtain ⟨a', ha', hfa'⟩ := ih xs hft b hbx
          exact ⟨a', List.mem_cons_of_mem a ha', hfa'⟩

/-- A successfully decoded capacity row consists of the four parsed
resource values of its item. -/
theorem nodeRow_ok {it : NodeItem} {r : NodeCapacity} (h : nodeRow it = .ok r) :
    parse_resource_value it.capCpu = .ok r.cpu_capacity_cores ∧
    parse_resource_value it.capMemory = .ok r.mem_capacity_bytes ∧
    parse_resource_value it.allocCpu = .ok r.cpu_alloc_cores ∧
    parse_resource_value it.allocMemory = .ok r.mem_alloc_bytes := by
  unfold nodeRow at h
  cases h1 : parse_resource_value it.capCpu with
  | error e => rw [h1] at h; exact absurd h (by simp [Bind.bind, Except.bind])
  | ok c1 =>
    rw [h1] at h
    cases h2 : parse_resource_value it.capMemory with
    | error e => rw [h2] at h; exact absurd h (by simp [Bind.bind, Except.bind])
    | ok c2 =>
      rw [h2] at h
      cases h3 : parse_resource_value it.allocCpu with
      | error e => rw [h3] at h; exact absurd h (by simp [Bind.bind, Except.bind])
      | ok c3 =>
        rw [h3] at h
        cases h4 : parse_resource_value it.allocMemory with
        | error e =>
          rw [h4] at h
          exact absurd h (by simp [Bind.bind, Except.bind])
        | ok c4 =>
          rw [h4] at h
          simp only [Bind.bind, Except.bind] at h
          have := Except.ok.inj h
          subst this
          exact ⟨rfl, rfl, rfl, rfl⟩

/-- A successfully decoded utilization row consists of the parsed second
and fourth tokens of its line. -/
theorem utilRow_ok_some {parts : List String} {u : NodeUtilization}
    (h : utilRow parts = .ok (some u)) :
    parse_resource_value (some (parts.getD 1 "")) = .ok u.cpu_used_cores ∧
    parse_resource_value (some (parts.getD 3 "")) = .ok u.mem_used_bytes := by
  unfold utilRow at h
  split at h
  · cases h1 : parse_resource_value (some (parts.getD 1 "")) with
    | error e => rw [h1] at h; exact absurd h (by simp [Bind.bind, Except.bind])
    | ok c1 =>
      rw [h1] at h
      cases h2 : parse_resource_value (some (parts.getD 3 "")) with
      | error e =>
        rw [h2] at h
        exact absurd h (by simp [Bind.bind, Except.bind])
      | ok c2 =>
        rw [h2] at h
        simp only [Bind.bind, Except.bind] at h
        have hu := Option.some.inj (Except.ok.inj h)
        subst hu
        exact ⟨rfl, rfl⟩
  · exact absurd (Except.ok.inj h) (by simp)

/-- Every character of every token produced by `pySplitStep`-folding comes
from the folded list. -/
theorem pySplitStep_foldr_subset (l : List Char) :
    (∀ tk ∈ (l.foldr pySplitStep (none, [])).2, ∀ c ∈ tk, c ∈ l) ∧
    (∀ tk, (l.foldr pySplitStep (none, [])).1 = some tk → ∀ c ∈ tk, c ∈ l) := by
  induction l with
  | nil =>
    constructor
    · intro tk htk
      simp at htk
    · intro tk htk
      simp at htk
  | cons d l' ih =>
    obtain ⟨ih1, ih2⟩ := ih
    rw [List.foldr_cons]
    cases hst : l'.foldr pySplitStep (none, []) with
    | mk cur toks =>
      rw [hst] at ih1 ih2
      unfold pySplitStep
      by_cases hw : pyWhitespace d = true
      · rw [if_pos hw]
        constructor
        · intro tk htk c hc
          cases cur with
          | none => exact List.mem_cons_of_mem d (ih1 tk htk c hc)
          | some t0 =>
            rcases List.mem_cons.mp htk with rfl | htoks
            · exact List.mem_cons_of_mem d (ih2 tk rfl c hc)
            · exact List.mem_cons_of_mem d (ih1 tk htoks c hc)
        · intro tk htk
          exact absurd htk (by simp)
      · rw [if_neg hw]
        constructor
        · intro tk htk c hc
          exact List.mem_cons_of_mem d (ih1 tk htk c hc)
        · intro tk htk c hc
          have htk' : d :: cur.getD [] = tk := Option.some.inj htk
          subst htk'
          rcases List.mem_cons.mp hc with rfl | hc'
          · exact List.mem_cons_self c l'
          · cases cur with
            | none => simp at hc'
            | some t0 => exact List.mem_cons_of_mem d (ih2 t0 rfl c hc')

theorem pySplitChars_subset {l tk : List Char}
    (htk : tk ∈ pySplitChars l) : ∀ c ∈ tk, c ∈ l := by
  obtain ⟨h1, h2⟩ := pySplitStep_foldr_subset l
  unfold pySplitChars at htk
  revert htk
  cases hst : l.foldr pySplitStep (none, []) with
  | mk cur toks =>
    rw [hst] at h1 h2
    cases cur with
    | none =>
      intro htk
      exact h1 tk htk
    | some t0 =>
      intro htk
      rcases List.mem_cons.mp htk with rfl | h
      · exact h2 tk rfl
      · exact h1 tk h

/-- Tokens of a minus-free line are minus-free. -/
theorem pySplit_minus_free {line : String} (hm : '-' ∉ line.data) :
    ∀ t ∈ pySplit line, '-' ∉ t.data := by
  intro t ht hc
  unfold pySplit at ht
  obtain ⟨tk, htk, rfl⟩ := List.mem_map.mp ht
  exact hm (pySplitChars_subset htk '-' hc)

/-- `getD` over a list of minus-free tokens (with a minus-free default) is
minus-free. -/
theorem getD_minus_free {parts : List String}
    (hp : ∀ t ∈ parts, '-' ∉ t.data) (i : Nat) :
    '-' ∉ (parts.getD i "").data := by
  by_cases hi : i < parts.length
  · rw [List.getD_eq_getElem parts "" hi]
    exact hp _ (parts.getElem_mem hi)
  · rw [List.getD_eq_default parts "" (by omega)]
    simp

theorem decodeUtilizationLines_ok {lines : List String}
    {rows : List NodeUtilization}
    (h : decodeUtilizationLines lines = .ok rows) :
    ∀ u ∈ rows, ∃ line ∈ lines, utilRow (pySplit line) = .ok (some u) := by
  unfold decodeUtilizationLines at h
  cases hm : lines.mapM (fun line => utilRow (pySplit line)) with
  | error e =>
    rw [hm] at h
    exact absurd h (by simp [Bind.bind, Except.bind])
  | ok rows0 =>
    rw [hm] at h
    simp only [Bind.bind, Except.bind] at h
    have hr : rows0.filterMap id = rows := Except.ok.inj h
    intro u hu
    rw [← hr, List.mem_filterMap] at hu
    obtain ⟨ou, hou, hid⟩ := hu
    have hou' : ou = some u := hid
    subst hou'
    exact mapM_ok_forall _ lines rows0 hm (some u) hou

/-- Value of an all-integer, exponent-free, negated literal. -/
theorem ratOfParts_true_int (ip : List Char) :
    ratOfParts ⟨true, ip, [], 0⟩ = -(digitsToNat ip : ℚ) := by
  simp [ratOfParts, digitsToNat_nil]

/-! ### Claim theorems: node decoding signs (C9) -/

/-- C9, counterexample: a node item whose capacity CPU string carries a
minus sign decodes to a `NodeCapacity` row with a negative
`cpu_capacity_cores` (−5120), refuting "all four numeric fields ≥ 0 for
every node-listing payload". -/
theorem decodeNodes_negative_on_negative_input :
    decodeNodes [⟨some "n1", some "-5Ki", some "1", some "1", some "1"⟩] =
      .ok [⟨"n1", -5120, 1, 1, 1⟩] ∧ ¬ (0 ≤ (-5120 : ℚ)) := by
  constructor
  · have hKi : parse_resource_value (some "-5Ki") = .ok (-5120) := by
      have hp : pyFloatParts (pyStrip (strDropRight "-5Ki" "Ki".length).data) =
          some ⟨true, ['5'], [], 0⟩ := by decide
      have hd : digitsToNat ['5'] = 5 := by decide
      simp +decide [parse_resource_value, suffixLoop, multipliers, pyFloat, hp,
        ratOfParts_true_int, hd]
      norm_num
    have h1 : parse_resource_value (some "1") = .ok 1 := by
      have hp : pyFloatParts (pyStrip ("1" : String).data) =
          some ⟨false, ['1'], [], 0⟩ := by decide
      have hd : digitsToNat ['1'] = 1 := by decide
      simp +decide [parse_resource_value, pyFloat, hp, ratOfParts_false_int, hd]
    show List.mapM nodeRow _ = _
    rw [List.mapM_cons, List.mapM_nil]
    simp [nodeRow, hKi, h1, Bind.bind, Except.bind, pure, Except.pure]
  · norm_num

/-- C9, amended: the decoded numeric fields are nonnegative provided the
raw resource strings are minus-free — which genuine `kubectl` output is.
A leading minus (see the counterexample) yields a negative field. -/
theorem nodeDecoding_nonneg :
    (∀ (items : List NodeItem) (rows : List NodeCapacity),
      (∀ it ∈ items, (∀ s, it.capCpu = some s → '-' ∉ s.data) ∧
        (∀ s, it.capMemory = some s → '-' ∉ s.data) ∧
        (∀ s, it.allocCpu = some s → '-' ∉ s.data) ∧
        (∀ s, it.allocMemory = some s → '-' ∉ s.data)) →
      decodeNodes items = .ok rows →
      ∀ r ∈ rows, 0 ≤ r.cpu_capacity_cores ∧ 0 ≤ r.mem_capacity_bytes ∧
        0 ≤ r.cpu_alloc_cores ∧ 0 ≤ r.mem_alloc_bytes) ∧
    (∀ (lines : List String) (rows : List NodeUtilization),
      (∀ line ∈ lines, '-' ∉ line.data) →
      decodeUtilizationLines lines = .ok rows →
      ∀ u ∈ rows, 0 ≤ u.cpu_used_cores ∧ 0 ≤ u.mem_used_bytes) := by
  constructor
  · intro items rows hm hdec r hr
    obtain ⟨it, hit, hrow⟩ := mapM_ok_forall nodeRow items rows hdec r hr
    obtain ⟨hc1, hc2, hc3, hc4⟩ := nodeRow_ok hrow
    obtain ⟨hm1, hm2, hm3, hm4⟩ := hm it hit
    exact ⟨parse_resource_value_nonneg hm1 hc1,
      parse_resource_value_nonneg hm2 hc2,
      parse_resource_value_nonneg hm3 hc3,
      parse_resource_value_nonneg hm4 hc4⟩
  · intro lines rows hm hdec u hu
    obtain ⟨line, hline, hrow⟩ := decodeUtilizationLines_ok hdec u hu
    obtain ⟨hc1, hc2⟩ := utilRow_ok_some hrow
    have htok : ∀ t ∈ pySplit line, '-' ∉ t.data :=
      pySplit_minus_free (hm line hline)
    have h1 : ∀ s, (some ((pySplit line).getD 1 "") : Option String) = some s →
        '-' ∉ s.data := by
      intro s hs
      have hss := Option.some.inj hs
      subst hss
      exact getD_minus_free htok 1
    have h3 : ∀ s, (some ((pySplit line).getD 3 "") : Option String) = some s →
        '-' ∉ s.data := by
      intro s hs
      have hss := Option.some.inj hs
      subst hss
      exact getD_minus_free htok 3
    exact ⟨parse_resource_value_nonneg h1 hc1,
      parse_resource_value_nonneg h3 hc2⟩

/-- C9, witness: the amended theorem applied to a one-node payload with
minus-free strings `"4"`/`"8"`, which decodes to the fixture row
`capN1 = ("n1", 4, 8, 4, 8)`. -/
theorem nodeDecoding_nonneg_witness :
    0 ≤ capN1.cpu_capacity_cores ∧ 0 ≤ capN1.mem_capacity_bytes ∧
    0 ≤ capN1.cpu_alloc_cores ∧ 0 ≤ capN1.mem_alloc_bytes := by
  have h4 : parse_resource_value (some "4") = .ok 4 := by
    have hp : pyFloatParts (pyStrip ("4" : String).data) =
        some ⟨false, ['4'], [], 0⟩ := by decide
    have hd : digitsToNat ['4'] = 4 := by decide
    simp +decide [parse_resource_value, pyFloat, hp, ratOfParts_false_int, hd]
  have h8 : parse_resource_value (some "8") = .ok 8 := by
    have hp : pyFloatParts (pyStrip ("8" : String).data) =
        some ⟨false, ['8'], [], 0⟩ := by decide
    have hd : digitsToNat ['8'] = 8 := by decide
    simp +decide [parse_resource_value, pyFloat, hp, ratOfParts_false_int, hd]
  have hdec : decodeNodes [⟨some "n1", some "4", some "8", some "4", some "8"⟩] =
      .ok [capN1] := by
    show List.mapM nodeRow _ = _
    rw [List.mapM_cons, List.mapM_nil]
    simp [nodeRow, h4, h8, Bind.bind, Except.bind, pure, Except.pure, capN1]
  exact nodeDecoding_nonneg.1
    [⟨some "n1", some "4", some "8", some "4", some "8"⟩] [capN1]
    (by
      intro it hit
      rw [List.mem_singleton] at hit
      subst hit
      refine ⟨?_, ?_, ?_, ?_⟩ <;> (intro s hs; injection hs with hs1) <;>
        (subst hs1; decide))
    hdec capN1 (List.mem_cons_self _ _)

end Dashboard
